import Mathlib

/-!
Shallow embedding of `main.py` from the `nico_ripser` repository, together
with proofs of the specification claims about its two core procedures:
the phase extraction `to_phase` and the offset-correction step of
`plot_phase_and_heading` (the spec's `align_phase_to_heading`).

Numpy floating-point arrays are modelled over the exact reals: a 1-D array
becomes a `List ℝ` (or `List ℂ`), a 2-D `(R, T)` array becomes a function
`Fin R → Fin T → ℝ`.  Numpy primitives (`linspace`, slicing, `interp`,
`unwrap`, `angle`, `mean`) are translated one by one below.
-/

open Real Complex

namespace NicoRipser

/-- Model of `np.linspace(a, b, n)`: the list `a + k * ((b - a)/(n-1))` for
`k = 0, …, n-1`.  For `n = 1` numpy returns `[a]`, which agrees with this
formula under Lean's `x / 0 = 0` convention. -/
noncomputable def np_linspace (a b : ℝ) (n : ℕ) : List ℝ :=
  (List.range n).map (fun k : ℕ => a + (k : ℝ) * ((b - a) / ((n : ℝ) - 1)))

/-- Model of the source line `circ = np.exp(1j*np.linspace(-np.pi, np.pi, R))`. -/
noncomputable def circList (R : ℕ) : List ℂ :=
  (np_linspace (-Real.pi) Real.pi R).map (fun θ : ℝ => Complex.exp (Complex.I * (θ : ℂ)))

/-- Model of the Python slice `xs[::2]`: every other element starting at index 0. -/
def slice02 {α : Type} : List α → List α
  | [] => []
  | [x] => [x]
  | x :: _ :: rest => x :: slice02 rest

/-- Model of the source line
`circ = np.array(circ[::2].tolist() + circ[1::2].tolist())`:
the Python slice `circ[1::2]` is `circ[1:][::2]`, i.e. `slice02` of the tail. -/
noncomputable def circReordList (R : ℕ) : List ℂ :=
  slice02 (circList R) ++ slice02 (circList R).tail

theorem slice02_length {α : Type} : ∀ l : List α, (slice02 l).length = (l.length + 1) / 2
  | [] => by simp [slice02]
  | [_] => by simp [slice02]
  | _ :: _ :: rest => by
      simp only [slice02, List.length_cons, slice02_length rest]
      omega

theorem slice02_getElem? {α : Type} :
    ∀ (l : List α) (i : ℕ), (slice02 l)[i]? = l[2 * i]?
  | [], i => by simp [slice02]
  | [x], i => by
      cases i with
      | zero => rfl
      | succ n =>
          simp only [slice02]
          rw [List.getElem?_eq_none (by simp), List.getElem?_eq_none (by simp; omega)]
  | x :: y :: rest, i => by
      cases i with
      | zero => simp [slice02]
      | succ n =>
          have h2 : 2 * (n + 1) = 2 * n + 1 + 1 := by omega
          simp only [slice02, h2, List.getElem?_cons_succ, slice02_getElem? rest n]

theorem np_linspace_length (a b : ℝ) (n : ℕ) : (np_linspace a b n).length = n := by
  rw [np_linspace, List.length_map, List.length_range]

theorem circList_length (R : ℕ) : (circList R).length = R := by
  rw [circList, List.length_map, np_linspace_length]

theorem circReordList_length (R : ℕ) : (circReordList R).length = R := by
  simp only [circReordList, List.length_append, slice02_length, List.length_tail,
    circList_length]
  omega

/-- Model of `to_phase` from `main.py`: the `(R, T)` fluorescence matrix is
multiplied by the reordered unit-circle row vector, `circ @ arr`, giving the
length-`T` complex phase signal `t ↦ ∑ r, circ[r] * arr[r][t]`. -/
noncomputable def to_phase (R T : ℕ) (arr : Fin R → Fin T → ℝ) : Fin T → ℂ :=
  fun t => ∑ j : Fin R,
    (circReordList R).get (Fin.cast (circReordList_length R).symm j) * (arr j t : ℂ)

/-- Angle `r` of the spec's construction: `R` equally spaced angles spanning
the closed interval `[-π, π]`, i.e. `-π + r * (2π / (R - 1))`. -/
noncomputable def specAngle (R : ℕ) (r : ℕ) : ℝ :=
  -Real.pi + (r : ℝ) * (2 * Real.pi / ((R : ℝ) - 1))

/-- The spec's fixed reordering: position `j` of the reordered sequence holds
original index `2j` while `j < ⌈R/2⌉`, and `2(j - ⌈R/2⌉) + 1` afterwards
(every other element from index 0, then every other element from index 1). -/
def reorderIndex (R : ℕ) (j : ℕ) : ℕ :=
  if j < (R + 1) / 2 then 2 * j else 2 * (j - (R + 1) / 2) + 1

/-- Reference definition of `compute_phase` written from the spec's words:
entry `t` is the sum over regions `r` of (reordered unit vector `r`) times
(fluorescence at region `r`, time `t`). -/
noncomputable def compute_phase_spec (R T : ℕ) (arr : Fin R → Fin T → ℝ) : Fin T → ℂ :=
  fun t => ∑ j : Fin R,
    Complex.exp (Complex.I * (specAngle R (reorderIndex R j) : ℂ)) * (arr j t : ℂ)

theorem circList_getElem? (R k : ℕ) (hk : k < R) :
    (circList R)[k]? = some (Complex.exp (Complex.I * (specAngle R k : ℂ))) := by
  rw [circList, List.getElem?_map, np_linspace, List.getElem?_map,
    List.getElem?_range hk, Option.map_some', Option.map_some']
  have h : (-Real.pi + (k : ℝ) * ((Real.pi - -Real.pi) / ((R : ℝ) - 1))) = specAngle R k := by
    rw [specAngle]; ring
  rw [h]

theorem circReordList_getElem? (R j : ℕ) (hj : j < R) :
    (circReordList R)[j]?
      = some (Complex.exp (Complex.I * (specAngle R (reorderIndex R j) : ℂ))) := by
  have hE : (slice02 (circList R)).length = (R + 1) / 2 := by
    rw [slice02_length, circList_length]
  by_cases h : j < (R + 1) / 2
  · rw [circReordList, List.getElem?_append_left (by omega : j < (slice02 (circList R)).length),
      slice02_getElem?, reorderIndex, if_pos h]
    exact circList_getElem? R (2 * j) (by omega)
  · rw [circReordList,
      List.getElem?_append_right (by omega : (slice02 (circList R)).length ≤ j),
      hE, slice02_getElem?, List.getElem?_tail]
    have h2 : 2 * (j - (R + 1) / 2) + 1 = reorderIndex R j := by
      rw [reorderIndex, if_neg h]
    rw [h2]
    exact circList_getElem? R (reorderIndex R j) (by rw [← h2]; omega)

theorem circReordList_entry (R : ℕ) (j : Fin R) :
    (circReordList R).get (Fin.cast (circReordList_length R).symm j)
      = Complex.exp (Complex.I * (specAngle R (reorderIndex R (j : ℕ)) : ℂ)) := by
  have hlt : (j : ℕ) < (circReordList R).length := by
    rw [circReordList_length]; exact j.isLt
  have h1 : (circReordList R)[(j : ℕ)]? = some ((circReordList R).get ⟨j, hlt⟩) := by
    rw [List.getElem?_eq_getElem hlt, List.get_eq_getElem]
  have h2 := circReordList_getElem? R (j : ℕ) j.isLt
  rw [h1] at h2
  have h3 : Fin.cast (circReordList_length R).symm j = ⟨(j : ℕ), hlt⟩ := rfl
  rw [h3]
  exact Option.some.inj h2

/-- C1: for every fluorescence matrix of shape `(R, T)` with `R ≥ 2`, `to_phase`
equals the reference definition built from the spec's words: `R` unit complex
numbers at `R` equally spaced angles spanning `[-π, π]`, reordered by taking
every other element starting at index 0 followed by every other element
starting at index 1, projected against the matrix at each time sample. -/
theorem to_phase_eq_compute_phase_spec (R T : ℕ) (arr : Fin R → Fin T → ℝ)
    (hR : 2 ≤ R) : to_phase R T arr = compute_phase_spec R T arr := by
  funext t
  unfold to_phase compute_phase_spec
  exact Finset.sum_congr rfl (fun j _ => by rw [circReordList_entry])

/-- Witness for C1 at the concrete input `R = 2`, `T = 1`, all-ones matrix. -/
theorem to_phase_eq_compute_phase_spec_witness :
    2 ≤ 2 ∧ to_phase 2 1 (fun _ _ => 1) = compute_phase_spec 2 1 (fun _ _ => 1) :=
  ⟨by norm_num, to_phase_eq_compute_phase_spec 2 1 (fun _ _ => 1) (by norm_num)⟩

/-- C7: `compute_phase` is linear: applying `to_phase` to `a*X + b*Y` gives
`a * to_phase X + b * to_phase Y` for real scalars `a, b` and matrices `X, Y`
of the same shape. -/
theorem to_phase_linear (R T : ℕ) (a b : ℝ) (X Y : Fin R → Fin T → ℝ) (t : Fin T) :
    to_phase R T (fun r s => a * X r s + b * Y r s) t
      = (a : ℂ) * to_phase R T X t + (b : ℂ) * to_phase R T Y t := by
  unfold to_phase
  rw [Finset.mul_sum, Finset.mul_sum, ← Finset.sum_add_distrib]
  refine Finset.sum_congr rfl (fun j _ => ?_)
  push_cast
  ring

/-- C9: for `R = 8`, `T = 100` and the all-ones fluorescence matrix, the phase
signal is constant over the 100 time samples and each entry equals the fixed
sum of the reordered unit vectors. -/
theorem to_phase_allones_constant (t u : Fin 100) :
    to_phase 8 100 (fun _ _ => 1) t
        = ∑ j : Fin 8, (circReordList 8).get (Fin.cast (circReordList_length 8).symm j)
      ∧ to_phase 8 100 (fun _ _ => 1) t = to_phase 8 100 (fun _ _ => 1) u := by
  constructor
  · unfold to_phase
    exact Finset.sum_congr rfl (fun j _ => by push_cast; ring)
  · unfold to_phase
    exact Finset.sum_congr rfl (fun j _ => rfl)

/-!
Embedding of the offset-correction core of `plot_phase_and_heading`
(`align_phase_to_heading` in the spec's interface), together with the numpy
primitives it uses: `np.interp`, `np.unwrap`, `np.angle` and `np.mean`.
-/

/-- Piecewise-linear evaluation on a nonempty list of `(x, f)` sample points,
assuming the query `x` is at least the first sample's abscissa: walk the
segments, evaluate linearly inside the first segment containing `x`, and clamp
to the last value beyond the last sample. -/
noncomputable def interpPts (x : ℝ) : List (ℝ × ℝ) → ℝ
  | [] => 0
  | [(_, f0)] => f0
  | (x0, f0) :: (x1, f1) :: rest =>
      if x < x1 then f0 + (f1 - f0) * (x - x0) / (x1 - x0)
      else interpPts x ((x1, f1) :: rest)

/-- Clamped piecewise-linear evaluation on a list of sample points: values
left of the first node clamp to its ordinate, the rest is `interpPts`. -/
noncomputable def np_interpPairs (x : ℝ) : List (ℝ × ℝ) → ℝ
  | [] => 0
  | (x0, f0) :: rest => if x ≤ x0 then f0 else interpPts x ((x0, f0) :: rest)

/-- Model of `np.interp(x, xp, fp)` for a single query point `x`: clamp to
`fp[0]` left of the grid, interpolate linearly between nodes inside the grid
and clamp to the last value right of the grid. -/
noncomputable def np_interp (x : ℝ) (xp fp : List ℝ) : ℝ :=
  np_interpPairs x (xp.zip fp)

/-- Model of one increment of `np.unwrap` with the default `discont = π` and
`period = 2π`: numpy computes `ddmod = mod(d + π, 2π) - π`, remaps the value
`-π` to `π` when `d > 0`, and keeps the raw difference `d` whenever
`|d| < π`. -/
noncomputable def wrapDiff (d : ℝ) : ℝ :=
  if |d| < Real.pi then d
  else
    let ddmod := d - 2 * Real.pi * ⌊(d + Real.pi) / (2 * Real.pi)⌋
    if ddmod = -Real.pi ∧ 0 < d then Real.pi else ddmod

/-- Accumulator of `np_unwrap`: `prev` is the previous raw sample, `u` its
unwrapped value; each new raw sample `q` gets the unwrapped value
`u + wrapDiff (q - prev)`. -/
noncomputable def unwrapGo (prev u : ℝ) : List ℝ → List ℝ
  | [] => []
  | q :: qs => (u + wrapDiff (q - prev)) :: unwrapGo q (u + wrapDiff (q - prev)) qs

/-- Model of `np.unwrap(p)` with default parameters: the first sample is kept
and each consecutive difference is replaced by its wrapped representative. -/
noncomputable def np_unwrap : List ℝ → List ℝ
  | [] => []
  | p0 :: rest => p0 :: unwrapGo p0 p0 rest

/-- Model of `np.mean` on a complex vector: the sum divided by the length
(Lean's `x / 0 = 0` stands in for the NaN numpy produces on an empty mean). -/
noncomputable def np_mean (l : List ℂ) : ℂ := l.sum / (l.length : ℂ)

/-- The `offset` computed by the `subtract_offset` branch of
`plot_phase_and_heading`:
`np.mean(np.exp(1j*np.interp(vr_timestamps, image_timestamps, np.unwrap(np.angle(phase)))) / np.exp(1j*vr_heading))`. -/
noncomputable def alignOffset (image_timestamps : List ℝ) (phase : List ℂ)
    (vr_timestamps vr_heading : List ℝ) : ℂ :=
  np_mean (List.zipWith
    (fun (pi_v : ℂ) (h : ℝ) => pi_v / Complex.exp (Complex.I * (h : ℂ)))
    (vr_timestamps.map (fun v : ℝ => Complex.exp (Complex.I *
      (np_interp v image_timestamps (np_unwrap (phase.map Complex.arg)) : ℂ))))
    vr_heading)

/-- The data transformation of `plot_phase_and_heading` (the spec's
`align_phase_to_heading`): when `subtract_offset` is true the phase is divided
elementwise by the mean complex ratio `alignOffset`; otherwise the phase is
passed through unchanged. -/
noncomputable def align_phase_to_heading (image_timestamps : List ℝ) (phase : List ℂ)
    (vr_timestamps vr_heading : List ℝ) (subtract_offset : Bool) : List ℂ :=
  if subtract_offset then
    phase.map (fun z => z / alignOffset image_timestamps phase vr_timestamps vr_heading)
  else phase

/-- The four caller-owned arrays passed to `plot_phase_and_heading`, modelled
as explicit state so that the in-place update `phase /= offset` and the
untouched inputs can be stated. -/
structure AlignState where
  image_timestamps : List ℝ
  phase : List ℂ
  vr_timestamps : List ℝ
  vr_heading : List ℝ

/-- State-passing model of `plot_phase_and_heading`: when `subtract_offset` is
true the statement `phase /= offset` overwrites the phase array with the
corrected values; no other array is written. -/
noncomputable def plot_phase_and_heading (s : AlignState) (subtract_offset : Bool) :
    AlignState :=
  if subtract_offset then
    { s with
      phase :=
        s.phase.map (fun z =>
          z / alignOffset s.image_timestamps s.phase s.vr_timestamps s.vr_heading) }
  else s

/-- Angle of a phase signal interpolated onto one behavioral timestamp, exactly
as the code forms it: `np.interp(v, image_timestamps, np.unwrap(np.angle(phase)))`. -/
noncomputable def interpAngles (image_timestamps : List ℝ) (phase : List ℂ) (v : ℝ) : ℝ :=
  np_interp v image_timestamps (np_unwrap (phase.map Complex.arg))

/-- RotationalOffset written from the spec's step description: the arithmetic
mean, over the `V` behavioral samples, of the re-wrapped interpolated phase
divided by the unit complex form of the heading. -/
noncomputable def rotationalOffset (image_timestamps : List ℝ) (phase : List ℂ)
    (vr_timestamps vr_heading : List ℝ) : ℂ :=
  (∑ i : Fin vr_timestamps.length,
      Complex.exp (Complex.I * (interpAngles image_timestamps phase (vr_timestamps.get i) : ℂ))
        / Complex.exp (Complex.I * (vr_heading.getD (i : ℕ) 0 : ℂ)))
    / (vr_timestamps.length : ℂ)

theorem sum_zipWith {α β : Type} (f : α → β → ℂ) (d : β) :
    ∀ (xs : List α) (ys : List β), ys.length = xs.length →
      (List.zipWith f xs ys).sum = ∑ i : Fin xs.length, f (xs.get i) (ys.getD (i : ℕ) d) := by
  intro xs
  induction xs with
  | nil => intro ys h; simp
  | cons x xs ih =>
      intro ys h
      cases ys with
      | nil => simp at h
      | cons y ys =>
          simp only [List.zipWith_cons_cons, List.sum_cons, List.length_cons,
            Fin.sum_univ_succ]
          rw [ih ys (by simpa using h)]
          rfl

/-- C2: with `subtract_offset = true`, the returned signal is the original
phase divided elementwise by the `RotationalOffset` obtained by the spec's
steps: unwrap the phase angle on the imaging grid, linearly interpolate it
onto the behavioral timestamps, re-wrap as a unit complex signal, divide by
the unit complex heading elementwise, and average the `V` complex ratios. -/
theorem align_eq_spec_steps (image_timestamps : List ℝ) (phase : List ℂ)
    (vr_timestamps vr_heading : List ℝ)
    (hlen : vr_heading.length = vr_timestamps.length) :
    align_phase_to_heading image_timestamps phase vr_timestamps vr_heading true
      = phase.map (fun z =>
          z / rotationalOffset image_timestamps phase vr_timestamps vr_heading) := by
  have hoff : alignOffset image_timestamps phase vr_timestamps vr_heading
      = rotationalOffset image_timestamps phase vr_timestamps vr_heading := by
    unfold alignOffset rotationalOffset np_mean
    rw [List.zipWith_map_left, sum_zipWith _ 0 vr_timestamps vr_heading hlen,
      List.length_zipWith, hlen, min_self]
    rfl
  unfold align_phase_to_heading
  rw [if_pos rfl, hoff]

/-- Witness for C2 at a concrete one-sample input. -/
theorem align_eq_spec_steps_witness :
    ([(0 : ℝ)]).length = ([(0 : ℝ)]).length ∧
      align_phase_to_heading [0] [(1 : ℂ)] [0] [0] true
        = ([(1 : ℂ)]).map (fun z => z / rotationalOffset [0] [(1 : ℂ)] [0] [0]) :=
  ⟨rfl, align_eq_spec_steps [0] [(1 : ℂ)] [0] [0] rfl⟩

/-- C3: for every input and either flag value, `align_phase_to_heading` returns
a complex vector of the same length `T` as the input phase signal. -/
theorem align_length (image_timestamps : List ℝ) (phase : List ℂ)
    (vr_timestamps vr_heading : List ℝ) (subtract_offset : Bool) :
    (align_phase_to_heading image_timestamps phase vr_timestamps vr_heading
      subtract_offset).length = phase.length := by
  unfold align_phase_to_heading
  cases subtract_offset <;> simp

/-- C5: with `subtract_offset = false` the call is a no-op: the phase signal is
returned unchanged, and in the state-passing model the whole state (all four
caller-owned arrays) is left untouched. -/
theorem align_no_offset_identity (image_timestamps : List ℝ) (phase : List ℂ)
    (vr_timestamps vr_heading : List ℝ) (s : AlignState) :
    align_phase_to_heading image_timestamps phase vr_timestamps vr_heading false = phase
      ∧ plot_phase_and_heading s false = s := by
  constructor <;> simp [align_phase_to_heading, plot_phase_and_heading]

theorem map_div_ne_self (off : ℂ) (l : List ℂ) (hoff : off ≠ 1)
    (hz : l.getD 0 0 ≠ 0) : l.map (fun z => z / off) ≠ l := by
  cases l with
  | nil => simp at hz
  | cons z rest =>
      have hz0 : z ≠ 0 := by simpa using hz
      intro hcontra
      simp only [List.map_cons, List.cons.injEq] at hcontra
      by_cases hoffz : off = 0
      · rw [hoffz, div_zero] at hcontra
        exact hz0 hcontra.1.symm
      · have h1 : z = z * off := (div_eq_iff hoffz).mp hcontra.1
        have h2 : z * 1 = z * off := by rw [mul_one]; exact h1
        exact hoff (mul_left_cancel₀ hz0 h2).symm

/-- C4: with `subtract_offset = true` the caller's phase array is overwritten
with the offset-corrected values (so it no longer holds the original values as
soon as the offset differs from 1 and the first sample is nonzero), while the
imaging timestamps, behavioral timestamps and heading arrays are untouched. -/
theorem plot_mutates_phase_only (s : AlignState) :
    (plot_phase_and_heading s true).phase
        = s.phase.map (fun z =>
            z / alignOffset s.image_timestamps s.phase s.vr_timestamps s.vr_heading)
      ∧ (plot_phase_and_heading s true).image_timestamps = s.image_timestamps
      ∧ (plot_phase_and_heading s true).vr_timestamps = s.vr_timestamps
      ∧ (plot_phase_and_heading s true).vr_heading = s.vr_heading
      ∧ (alignOffset s.image_timestamps s.phase s.vr_timestamps s.vr_heading ≠ 1 →
          s.phase.getD 0 0 ≠ 0 →
          (plot_phase_and_heading s true).phase ≠ s.phase) := by
  refine ⟨rfl, rfl, rfl, rfl, fun hoff hz => ?_⟩
  have h := map_div_ne_self
    (alignOffset s.image_timestamps s.phase s.vr_timestamps s.vr_heading) s.phase hoff hz
  simpa [plot_phase_and_heading] using h

/-- Helper evaluation: at the one-sample input with unit phase and heading
`π`, the computed mean complex ratio is exactly `-1`. -/
theorem alignOffset_eval : alignOffset [0] [(1 : ℂ)] [0] [Real.pi] = -1 := by
  unfold alignOffset np_mean np_unwrap np_interp np_interpPairs
  simp only [List.map_cons, List.map_nil, Complex.arg_one, unwrapGo, List.zip_cons_cons,
    List.zip_nil_right, List.zipWith_cons_cons, List.zipWith_nil_right, List.sum_cons,
    List.sum_nil, List.length_cons, List.length_nil]
  rw [if_pos le_rfl]
  rw [Complex.ofReal_zero, mul_zero, Complex.exp_zero, mul_comm Complex.I,
    Complex.exp_pi_mul_I]
  norm_num

/-- Witness for C4 at a concrete input whose offset evaluates to `-1`. -/
theorem plot_mutates_phase_only_witness :
    alignOffset [0] [(1 : ℂ)] [0] [Real.pi] ≠ 1 ∧
      ((⟨[0], [(1 : ℂ)], [0], [Real.pi]⟩ : AlignState).phase.getD 0 0 ≠ 0) ∧
      (plot_phase_and_heading (⟨[0], [(1 : ℂ)], [0], [Real.pi]⟩ : AlignState) true).phase
        ≠ (⟨[0], [(1 : ℂ)], [0], [Real.pi]⟩ : AlignState).phase := by
  have h1 : alignOffset [0] [(1 : ℂ)] [0] [Real.pi] ≠ 1 := by
    rw [alignOffset_eval]
    norm_num
  have h2 : ((⟨[0], [(1 : ℂ)], [0], [Real.pi]⟩ : AlignState).phase.getD 0 0 ≠ 0) := by
    norm_num
  exact ⟨h1, h2,
    (plot_mutates_phase_only ⟨[0], [(1 : ℂ)], [0], [Real.pi]⟩).2.2.2.2 h1 h2⟩

/-- C8 evaluation: at `V = 0` (empty behavioral arrays) the code does not
raise: the empty mean is the ill-defined value modelled by Lean's `0/0 = 0`
(numpy: NaN with a warning), and a full length-`T` phase vector of junk values
is still returned. -/
theorem align_empty_vr_silent :
    align_phase_to_heading [0] [(1 : ℂ)] [] [] true = [0] ∧
      (align_phase_to_heading [0] [(1 : ℂ)] [] [] true).length = 1 := by
  constructor
  · simp [align_phase_to_heading, alignOffset, np_mean]
  · simp [align_phase_to_heading]

/-- C10: dividing a nonzero phase sample by the (generally non-unit) offset
changes its complex angle by exactly minus the angle of the offset modulo
`2π`, rescales its magnitude by `1/|offset|`, and the angle of the quotient is
unchanged when the offset is scaled by any positive real (so the offset's
magnitude never affects the corrected angle). -/
theorem align_div_angle_magnitude (image_timestamps : List ℝ) (phase : List ℂ)
    (vr_timestamps vr_heading : List ℝ) (t : ℕ) (ht : t < phase.length)
    (hoff : alignOffset image_timestamps phase vr_timestamps vr_heading ≠ 0)
    (hz : phase.getD t 0 ≠ 0) :
    (∃ k : ℤ,
        Complex.arg ((align_phase_to_heading image_timestamps phase vr_timestamps
              vr_heading true).getD t 0)
            - (Complex.arg (phase.getD t 0)
                - Complex.arg (alignOffset image_timestamps phase vr_timestamps vr_heading))
          = 2 * Real.pi * k)
      ∧ Complex.abs ((align_phase_to_heading image_timestamps phase vr_timestamps
            vr_heading true).getD t 0)
          = Complex.abs (phase.getD t 0)
            / Complex.abs (alignOffset image_timestamps phase vr_timestamps vr_heading)
      ∧ ∀ r : ℝ, 0 < r →
          Complex.arg (phase.getD t 0
              / ((r : ℂ) * alignOffset image_timestamps phase vr_timestamps vr_heading))
            = Complex.arg (phase.getD t 0
              / alignOffset image_timestamps phase vr_timestamps vr_heading) := by
  have hres : (align_phase_to_heading image_timestamps phase vr_timestamps
        vr_heading true).getD t 0
      = phase.getD t 0
          / alignOffset image_timestamps phase vr_timestamps vr_heading := by
    unfold align_phase_to_heading
    rw [if_pos rfl]
    have hlen' : t < (phase.map (fun z =>
        z / alignOffset image_timestamps phase vr_timestamps vr_heading)).length := by
      simpa using ht
    rw [List.getD_eq_getElem _ _ hlen', List.getElem_map, ← List.getD_eq_getElem _ _ ht]
  refine ⟨?_, ?_, ?_⟩
  · rw [hres]
    have h := Complex.arg_div_coe_angle hz hoff
    rw [← Real.Angle.coe_sub] at h
    exact Real.Angle.angle_eq_iff_two_pi_dvd_sub.mp h
  · rw [hres]
    exact map_div₀ Complex.abs _ _
  · intro r hr
    have hsplit : phase.getD t 0
        / ((r : ℂ) * alignOffset image_timestamps phase vr_timestamps vr_heading)
        = ((r⁻¹ : ℝ) : ℂ) * (phase.getD t 0
            / alignOffset image_timestamps phase vr_timestamps vr_heading) := by
      rw [Complex.ofReal_inv]
      field_simp
    rw [hsplit, Complex.arg_real_mul _ (inv_pos.mpr hr)]

/-- Witness for C10 at the one-sample input whose offset is `-1`. -/
theorem align_div_angle_magnitude_witness :
    (0 : ℕ) < ([(1 : ℂ)]).length
      ∧ alignOffset [0] [(1 : ℂ)] [0] [Real.pi] ≠ 0
      ∧ ([(1 : ℂ)]).getD 0 0 ≠ 0
      ∧ ((∃ k : ℤ,
            Complex.arg ((align_phase_to_heading [0] [(1 : ℂ)] [0] [Real.pi] true).getD 0 0)
                - (Complex.arg (([(1 : ℂ)]).getD 0 0)
                    - Complex.arg (alignOffset [0] [(1 : ℂ)] [0] [Real.pi]))
              = 2 * Real.pi * k)
          ∧ Complex.abs ((align_phase_to_heading [0] [(1 : ℂ)] [0] [Real.pi] true).getD 0 0)
              = Complex.abs (([(1 : ℂ)]).getD 0 0)
                / Complex.abs (alignOffset [0] [(1 : ℂ)] [0] [Real.pi])
          ∧ ∀ r : ℝ, 0 < r →
              Complex.arg (([(1 : ℂ)]).getD 0 0
                  / ((r : ℂ) * alignOffset [0] [(1 : ℂ)] [0] [Real.pi]))
                = Complex.arg (([(1 : ℂ)]).getD 0 0
                  / alignOffset [0] [(1 : ℂ)] [0] [Real.pi])) := by
  have h1 : (0 : ℕ) < ([(1 : ℂ)]).length := by norm_num
  have h2 : alignOffset [0] [(1 : ℂ)] [0] [Real.pi] ≠ 0 := by
    rw [alignOffset_eval]; norm_num
  have h3 : ([(1 : ℂ)]).getD 0 0 ≠ 0 := by norm_num
  exact ⟨h1, h2, h3, align_div_angle_magnitude [0] [(1 : ℂ)] [0] [Real.pi] 0 h1 h2 h3⟩

/-!
Machinery for claim C6: behaviour of `np_unwrap`, `np_interp` and the offset
under multiplication of the phase signal by a fixed unit complex number.
-/

/-- Representative of `d` modulo `2π` lying in `[-π, π)`; this is numpy's
`mod(d + π, 2π) - π` subexpression of `unwrap`. -/
noncomputable def wrapRep (d : ℝ) : ℝ :=
  d - 2 * Real.pi * ⌊(d + Real.pi) / (2 * Real.pi)⌋

theorem wrapRep_mem (d : ℝ) : wrapRep d ∈ Set.Ico (-Real.pi) Real.pi := by
  have h2pi : (0 : ℝ) < 2 * Real.pi := by positivity
  have h1 : (⌊(d + Real.pi) / (2 * Real.pi)⌋ : ℝ) ≤ (d + Real.pi) / (2 * Real.pi) :=
    Int.floor_le _
  have h2 : (d + Real.pi) / (2 * Real.pi) < ⌊(d + Real.pi) / (2 * Real.pi)⌋ + 1 :=
    Int.lt_floor_add_one _
  constructor
  · rw [wrapRep]
    nlinarith [(le_div_iff₀ h2pi).mp h1]
  · rw [wrapRep]
    nlinarith [(div_lt_iff₀ h2pi).mp h2]

theorem wrapRep_sub_self (d : ℝ) : ∃ m : ℤ, d - wrapRep d = 2 * Real.pi * m :=
  ⟨⌊(d + Real.pi) / (2 * Real.pi)⌋, by rw [wrapRep]; ring⟩

/-- Two representatives in `[-π, π)` that differ by an integer multiple of `2π`
are equal. -/
theorem ico_rep_unique {y y' : ℝ} (hy : y ∈ Set.Ico (-Real.pi) Real.pi)
    (hy' : y' ∈ Set.Ico (-Real.pi) Real.pi)
    (h : ∃ m : ℤ, y - y' = 2 * Real.pi * m) : y = y' := by
  obtain ⟨m, hm⟩ := h
  have hpi := Real.pi_pos
  have hb : |y - y'| < 2 * Real.pi := by
    rw [abs_lt]
    constructor <;> [nlinarith [hy.1, hy'.2]; nlinarith [hy.2, hy'.1]]
  have hm0 : m = 0 := by
    by_contra hm0
    have : (1 : ℝ) ≤ |(m : ℝ)| := by
      rw [← Int.cast_abs]
      exact_mod_cast Int.one_le_abs (by omega)
    rw [hm, abs_mul, abs_of_pos (by positivity : (0:ℝ) < 2 * Real.pi)] at hb
    nlinarith
  rw [hm0] at hm
  push_cast at hm
  linarith

/-- If `y` lies in the open interval `(-π, π)` and is congruent to `d` modulo
`2π`, then `wrapDiff d = y`. -/
theorem wrapDiff_eq_of_mem (d y : ℝ) (hy : y ∈ Set.Ioo (-Real.pi) Real.pi)
    (hcong : ∃ m : ℤ, d - y = 2 * Real.pi * m) : wrapDiff d = y := by
  have hpi := Real.pi_pos
  by_cases hsmall : |d| < Real.pi
  · have hd : d ∈ Set.Ico (-Real.pi) Real.pi := by
      rw [abs_lt] at hsmall
      exact ⟨le_of_lt hsmall.1, hsmall.2⟩
    have hyIco : y ∈ Set.Ico (-Real.pi) Real.pi := ⟨le_of_lt hy.1, hy.2⟩
    rw [wrapDiff, if_pos hsmall]
    exact ico_rep_unique hd hyIco hcong
  · have hrep : wrapRep d = y := by
      refine ico_rep_unique (wrapRep_mem d) ⟨le_of_lt hy.1, hy.2⟩ ?_
      obtain ⟨m, hm⟩ := wrapRep_sub_self d
      obtain ⟨m', hm'⟩ := hcong
      exact ⟨m' - m, by push_cast; nlinarith⟩
    rw [wrapDiff, if_neg hsmall]
    have hne : ¬ (wrapRep d = -Real.pi ∧ 0 < d) := by
      intro hcontra
      rw [hrep] at hcontra
      exact absurd hcontra.1 (by nlinarith [hy.1])
    simp only [wrapRep] at hrep hne
    rw [if_neg hne]
    exact hrep

/-- Congruent differences that avoid the antipodal residue `π (mod 2π)` have
the same wrapped representative. -/
theorem wrapDiff_congr (d d' : ℝ)
    (hcong : ∃ m : ℤ, d' - d = 2 * Real.pi * m)
    (hnot : ¬ ∃ k : ℤ, d = Real.pi + 2 * Real.pi * k) :
    wrapDiff d' = wrapDiff d := by
  have hpi := Real.pi_pos
  have hmem : wrapRep d ∈ Set.Ioo (-Real.pi) Real.pi := by
    rcases wrapRep_mem d with ⟨h1, h2⟩
    rcases lt_or_eq_of_le h1 with h1' | h1'
    · exact ⟨h1', h2⟩
    · exfalso
      obtain ⟨m, hm⟩ := wrapRep_sub_self d
      exact hnot ⟨m - 1, by push_cast; nlinarith [h1'.symm]⟩
  have h1 := wrapDiff_eq_of_mem d (wrapRep d) hmem (wrapRep_sub_self d)
  have h2 := wrapDiff_eq_of_mem d' (wrapRep d) hmem ?_
  · rw [h1, h2]
  · obtain ⟨m, hm⟩ := wrapRep_sub_self d
    obtain ⟨m', hm'⟩ := hcong
    exact ⟨m + m', by push_cast; nlinarith⟩

/-- Multiplying two nonzero complex numbers adds their arguments modulo `2π`. -/
theorem arg_mul_congr {z w : ℂ} (hz : z ≠ 0) (hw : w ≠ 0) :
    ∃ m : ℤ, Complex.arg (z * w) - (Complex.arg z + Complex.arg w) = 2 * Real.pi * m := by
  have h := Complex.arg_mul_coe_angle hz hw
  rw [← Real.Angle.coe_add] at h
  exact Real.Angle.angle_eq_iff_two_pi_dvd_sub.mp h

/-- The relation "consecutive samples are not exactly antipodal": the angle
difference is not `π` modulo `2π`. -/
def NotAntipodal (a b : ℂ) : Prop :=
  ¬ ∃ k : ℤ, Complex.arg b - Complex.arg a = Real.pi + 2 * Real.pi * k

theorem arg_diff_congr {z1 z2 e : ℂ} (h1 : z1 ≠ 0) (h2 : z2 ≠ 0) (he : e ≠ 0) :
    ∃ m : ℤ, (Complex.arg (z2 * e) - Complex.arg (z1 * e))
        - (Complex.arg z2 - Complex.arg z1) = 2 * Real.pi * m := by
  obtain ⟨m2, hm2⟩ := arg_mul_congr h2 he
  obtain ⟨m1, hm1⟩ := arg_mul_congr h1 he
  exact ⟨m2 - m1, by push_cast; nlinarith⟩

theorem unwrapGo_mul {e : ℂ} (he : e ≠ 0) :
    ∀ (zs : List ℂ) (q : ℂ) (u δ : ℝ), q ≠ 0 → (∀ w ∈ zs, w ≠ 0) →
      List.Chain' NotAntipodal (q :: zs) →
      unwrapGo (Complex.arg (q * e)) (u + δ)
          (zs.map (fun w => Complex.arg (w * e)))
        = (unwrapGo (Complex.arg q) u (zs.map Complex.arg)).map (fun x => x + δ) := by
  intro zs
  induction zs with
  | nil => intro q u δ _ _ _; simp [unwrapGo]
  | cons w ws ih =>
      intro q u δ hq hnz hchain
      have hw : w ≠ 0 := hnz w (List.mem_cons_self w ws)
      have hrel : NotAntipodal q w := (List.chain'_cons.mp hchain).1
      have hwd : wrapDiff (Complex.arg (w * e) - Complex.arg (q * e))
          = wrapDiff (Complex.arg w - Complex.arg q) :=
        wrapDiff_congr _ _ (arg_diff_congr hq hw he) hrel
      simp only [List.map_cons, unwrapGo, hwd, List.cons.injEq]
      refine ⟨by ring, ?_⟩
      have hstep : u + δ + wrapDiff (Complex.arg w - Complex.arg q)
          = (u + wrapDiff (Complex.arg w - Complex.arg q)) + δ := by ring
      rw [hstep]
      exact ih w (u + wrapDiff (Complex.arg w - Complex.arg q)) δ hw
        (fun x hx => hnz x (List.mem_cons_of_mem w hx))
        (List.chain'_cons.mp hchain).2

/-- Unwrapping the angles of a phase signal multiplied by a fixed nonzero
complex number shifts the whole unwrapped trajectory by the constant
`arg (z0 * e) - arg z0` determined by the first sample. -/
theorem np_unwrap_mul {e : ℂ} (he : e ≠ 0) (z : ℂ) (zs : List ℂ)
    (hz : z ≠ 0) (hnz : ∀ w ∈ zs, w ≠ 0)
    (hchain : List.Chain' NotAntipodal (z :: zs)) :
    np_unwrap ((z :: zs).map (fun w => Complex.arg (w * e)))
      = (np_unwrap ((z :: zs).map Complex.arg)).map
          (fun x => x + (Complex.arg (z * e) - Complex.arg z)) := by
  simp only [List.map_cons, np_unwrap, List.cons.injEq]
  refine ⟨by ring, ?_⟩
  have hsplit : Complex.arg (z * e)
      = Complex.arg z + (Complex.arg (z * e) - Complex.arg z) := by ring
  nth_rewrite 2 [hsplit]
  exact unwrapGo_mul he zs z (Complex.arg z) (Complex.arg (z * e) - Complex.arg z)
    hz hnz hchain

theorem interpPts_shift (x δ : ℝ) :
    ∀ l : List (ℝ × ℝ), l ≠ [] →
      interpPts x (l.map (fun p => (p.1, p.2 + δ))) = interpPts x l + δ := by
  intro l
  induction l with
  | nil => intro h; exact absurd rfl h
  | cons hd tl ih =>
      intro _
      obtain ⟨x0, f0⟩ := hd
      cases tl with
      | nil => simp [interpPts]
      | cons hd2 tl2 =>
          obtain ⟨x1, f1⟩ := hd2
          simp only [List.map_cons, interpPts]
          by_cases hx : x < x1
          · rw [if_pos hx, if_pos hx]; ring
          · rw [if_neg hx, if_neg hx]
            have h := ih (by simp)
            simpa [List.map_cons] using h

theorem np_interpPairs_shift (x δ : ℝ) (l : List (ℝ × ℝ)) (hl : l ≠ []) :
    np_interpPairs x (l.map (fun p => (p.1, p.2 + δ))) = np_interpPairs x l + δ := by
  obtain ⟨⟨x0, f0⟩, rest, rfl⟩ := List.exists_cons_of_ne_nil hl
  simp only [List.map_cons, np_interpPairs]
  by_cases hx : x ≤ x0
  · rw [if_pos hx, if_pos hx]
  · rw [if_neg hx, if_neg hx]
    have h := interpPts_shift x δ ((x0, f0) :: rest) (by simp)
    simpa [List.map_cons] using h

theorem np_interp_shift (x δ : ℝ) (xp fp : List ℝ) (hxp : xp ≠ []) (hfp : fp ≠ []) :
    np_interp x xp (fp.map (fun y => y + δ)) = np_interp x xp fp + δ := by
  unfold np_interp
  rw [List.zip_map_right]
  have hmapeq : (Prod.map (@id ℝ) fun y : ℝ => y + δ)
      = (fun p : ℝ × ℝ => (p.1, p.2 + δ)) := by
    funext p
    rfl
  rw [hmapeq]
  refine np_interpPairs_shift x δ (xp.zip fp) ?_
  obtain ⟨a, as, rfl⟩ := List.exists_cons_of_ne_nil hxp
  obtain ⟨b, bs, rfl⟩ := List.exists_cons_of_ne_nil hfp
  simp [List.zip_cons_cons]

/-- Interpolating the unwrapped angle of a phase signal multiplied by a fixed
nonzero complex number shifts the interpolated angle by the constant
`arg (z * e) - arg z` given by the first sample. -/
theorem interpAngles_mul {e : ℂ} (he : e ≠ 0) (img : List ℝ) (z : ℂ) (zs : List ℂ)
    (himg : img ≠ []) (hz : z ≠ 0) (hnz : ∀ w ∈ zs, w ≠ 0)
    (hchain : List.Chain' NotAntipodal (z :: zs)) (v : ℝ) :
    interpAngles img ((z :: zs).map (fun w => w * e)) v
      = interpAngles img (z :: zs) v + (Complex.arg (z * e) - Complex.arg z) := by
  unfold interpAngles
  have hmap : ((z :: zs).map (fun w => w * e)).map Complex.arg
      = (z :: zs).map (fun w => Complex.arg (w * e)) := by
    rw [List.map_map]
    rfl
  rw [hmap, np_unwrap_mul he z zs hz hnz hchain]
  exact np_interp_shift v (Complex.arg (z * e) - Complex.arg z) img
    (np_unwrap ((z :: zs).map Complex.arg)) himg (by simp [np_unwrap])

/-- The argument of `exp(i c)` is `c` as an angle modulo `2π`. -/
theorem arg_exp_I_coe_angle (c : ℝ) :
    ((Complex.exp (Complex.I * (c : ℂ))).arg : Real.Angle) = (c : Real.Angle) := by
  rw [mul_comm, Complex.exp_mul_I]
  have h := Complex.arg_cos_add_sin_mul_I_coe_angle (c : Real.Angle)
  rw [Real.Angle.cos_coe, Real.Angle.sin_coe, Complex.ofReal_cos, Complex.ofReal_sin] at h
  exact h

/-- When the heading is constructed as the interpolated phase angle plus a
constant `c`, every complex ratio in the offset computation collapses to
`exp(-i c)`, and so does their mean. -/
theorem alignOffset_constructed (img : List ℝ) (phase : List ℂ) (vr_t : List ℝ)
    (c : ℝ) (hvr : vr_t ≠ []) :
    alignOffset img phase vr_t (vr_t.map (fun v => interpAngles img phase v + c))
      = Complex.exp (-(Complex.I * (c : ℂ))) := by
  unfold alignOffset np_mean
  rw [List.zipWith_map, List.zipWith_same]
  have hconst : List.map
      (fun a : ℝ => Complex.exp (Complex.I *
          ((np_interp a img (np_unwrap (phase.map Complex.arg)) : ℝ) : ℂ))
        / Complex.exp (Complex.I * ((interpAngles img phase a + c : ℝ) : ℂ))) vr_t
      = List.replicate vr_t.length (Complex.exp (-(Complex.I * (c : ℂ)))) := by
    rw [← List.map_const']
    refine List.map_congr_left (fun a _ => ?_)
    rw [← Complex.exp_sub]
    congr 1
    simp only [interpAngles]
    push_cast
    ring
  rw [hconst, List.sum_replicate, List.length_replicate, nsmul_eq_mul,
    mul_div_cancel_left₀]
  exact Nat.cast_ne_zero.mpr (by simpa [List.length_eq_zero] using hvr)

/-- With the constructed heading, the corrected phase is the original phase
multiplied elementwise by `exp(i c)`. -/
theorem align_constructed (img : List ℝ) (phase : List ℂ) (vr_t : List ℝ)
    (c : ℝ) (hvr : vr_t ≠ []) :
    align_phase_to_heading img phase vr_t
        (vr_t.map (fun v => interpAngles img phase v + c)) true
      = phase.map (fun z => z * Complex.exp (Complex.I * (c : ℂ))) := by
  unfold align_phase_to_heading
  rw [if_pos rfl, alignOffset_constructed img phase vr_t c hvr]
  refine List.map_congr_left (fun z _ => ?_)
  rw [Complex.exp_neg, div_inv_eq_mul]

/-- C6 (amended): when the heading is constructed as the interpolated phase
angle plus a constant `c`, running the alignment with `subtract_offset = true`
removes the offset up to one fixed integer multiple of `2π`: the corrected
phase's angle interpolated onto the behavioral grid equals the heading minus
`2πk` for a single integer `k` uniform over all behavioral samples (exactly,
in exact real arithmetic).  Hypotheses: nonempty grids, imaging grid and phase
of equal length, nonzero phase samples, and no two consecutive phase samples
exactly antipodal. -/
theorem align_roundtrip_mod_two_pi (image_timestamps : List ℝ) (phase : List ℂ)
    (vr_timestamps : List ℝ) (c : ℝ)
    (himg : image_timestamps ≠ [])
    (hlen : image_timestamps.length = phase.length)
    (hnz : ∀ z ∈ phase, z ≠ 0)
    (hchain : List.Chain' NotAntipodal phase)
    (hvr : vr_timestamps ≠ []) :
    ∃ k : ℤ, ∀ v ∈ vr_timestamps,
      interpAngles image_timestamps
          (align_phase_to_heading image_timestamps phase vr_timestamps
            (vr_timestamps.map
              (fun w => interpAngles image_timestamps phase w + c)) true) v
        = (interpAngles image_timestamps phase v + c) - 2 * Real.pi * k := by
  have hpne : phase ≠ [] := by
    intro h0
    rw [h0, List.length_nil, List.length_eq_zero] at hlen
    exact himg hlen
  obtain ⟨z, zs, rfl⟩ := List.exists_cons_of_ne_nil hpne
  have hene : Complex.exp (Complex.I * (c : ℂ)) ≠ 0 := Complex.exp_ne_zero _
  have hznz : z ≠ 0 := hnz z (List.mem_cons_self z zs)
  have hzsnz : ∀ w ∈ zs, w ≠ 0 := fun w hw => hnz w (List.mem_cons_of_mem z hw)
  obtain ⟨m, hm⟩ := arg_mul_congr hznz hene
  obtain ⟨m', hm'⟩ := Real.Angle.angle_eq_iff_two_pi_dvd_sub.mp (arg_exp_I_coe_angle c)
  refine ⟨-(m + m'), fun v _ => ?_⟩
  rw [align_constructed image_timestamps (z :: zs) vr_timestamps c hvr,
    interpAngles_mul hene image_timestamps z zs himg hznz hzsnz hchain v]
  push_cast
  nlinarith [hm, hm']

/-- Witness for the amended C6 at a one-sample input with `c = 0`. -/
theorem align_roundtrip_mod_two_pi_witness :
    ([(0 : ℝ)] ≠ ([] : List ℝ))
      ∧ ([(0 : ℝ)] : List ℝ).length = ([(1 : ℂ)] : List ℂ).length
      ∧ (∀ z ∈ ([(1 : ℂ)] : List ℂ), z ≠ 0)
      ∧ List.Chain' NotAntipodal [(1 : ℂ)]
      ∧ (∃ k : ℤ, ∀ v ∈ ([(0 : ℝ)] : List ℝ),
          interpAngles [0]
              (align_phase_to_heading [0] [(1 : ℂ)] [0]
                (([(0 : ℝ)] : List ℝ).map
                  (fun w => interpAngles [0] [(1 : ℂ)] w + 0)) true) v
            = (interpAngles [0] [(1 : ℂ)] v + 0) - 2 * Real.pi * k) := by
  refine ⟨by simp, by simp, by simp, List.chain'_singleton _, ?_⟩
  exact align_roundtrip_mod_two_pi [0] [(1 : ℂ)] [0] 0 (by simp) (by simp)
    (by simp) (List.chain'_singleton _) (by simp)

/-- C6 counterexample: with the one-sample phase `[1]`, imaging grid `[0]`,
behavioral grid `[0]` and constant offset `c = 2π`, the heading `[2π]` is
exactly the construction `angle(phase interpolated onto the vr grid) + c`, yet
after alignment with `subtract_offset = true` the corrected phase's angle
interpolated onto the behavioral grid is `0`, which differs from the heading
by `2π`, far beyond the claimed `1e-6` radian tolerance. -/
theorem align_roundtrip_cex :
    ([2 * Real.pi] : List ℝ) = [interpAngles [0] [(1 : ℂ)] 0 + 2 * Real.pi]
      ∧ ¬ (|interpAngles [0]
              (align_phase_to_heading [0] [(1 : ℂ)] [0] [2 * Real.pi] true) 0
            - 2 * Real.pi| ≤ 1e-6) := by
  have hA : interpAngles [0] [(1 : ℂ)] 0 = 0 := by
    unfold interpAngles np_interp np_interpPairs np_unwrap
    simp [Complex.arg_one, unwrapGo, List.zip_cons_cons]
  constructor
  · rw [hA, zero_add]
  · have hoff : alignOffset [0] [(1 : ℂ)] [0] [2 * Real.pi] = 1 := by
      unfold alignOffset np_mean np_unwrap np_interp np_interpPairs
      simp only [List.map_cons, List.map_nil, Complex.arg_one, unwrapGo,
        List.zip_cons_cons, List.zip_nil_right, List.zipWith_cons_cons,
        List.zipWith_nil_right, List.sum_cons, List.sum_nil, List.length_cons,
        List.length_nil]
      rw [if_pos le_rfl, Complex.ofReal_zero, mul_zero, Complex.exp_zero]
      have h2 : Complex.I * ((2 * Real.pi : ℝ) : ℂ) = 2 * (Real.pi : ℂ) * Complex.I := by
        push_cast
        ring
      rw [h2, Complex.exp_two_pi_mul_I]
      norm_num
    have hres : align_phase_to_heading [0] [(1 : ℂ)] [0] [2 * Real.pi] true
        = [(1 : ℂ)] := by
      unfold align_phase_to_heading
      rw [if_pos rfl, hoff]
      norm_num
    rw [hres, hA, not_le]
    have habs : |(0 : ℝ) - 2 * Real.pi| = 2 * Real.pi := by
      rw [zero_sub, abs_neg, abs_of_pos (by positivity)]
    rw [habs]
    nlinarith [Real.pi_gt_three]

end NicoRipser
